import Mathlib

/-!
Shallow embedding of the Thought Lifecycle Store of the quirk repository
(source: src/src/CBTListScreen.tsx, store module), together with proofs of
the specification's claims about it.

Modelling conventions:
  * `AsyncStorage` is modelled as an association list from keys to stored
    values (`Store`).  `getItem` returns the first binding; `setItem`
    replaces the first binding with the key, appending when absent;
    `removeItem` drops every binding with the key; `multiRemove` drops all
    bindings whose key is in the given list.
  * A stored string is abstracted by what `JSON.parse` does to it:
    `StoredValue.thoughtVal t` is a string that parses to the record `t`,
    `StoredValue.badVal` is a string on which `JSON.parse` throws, and
    `StoredValue.nullVal` is a row whose value is the JS `null` (as the
    row filter `n && n[1]` of `getExercises` sees it).
  * JS `Date` is modelled by its wall-clock minute count since the epoch in
    local time; `getMinutes()` is that count modulo 60, as in JS.
  * `JSON.stringify` (the `stringify` of json-stringify-safe) is passed in
    as an explicit `encode` function returning `Option String`
    (`none` models a missing result); `AsyncStorage.setItem` fallibility is
    passed in as a boolean `setOk` (the code catches a rejection of
    `setItem` inside `saveThought` and resolves anyway).  `removeItem` is
    modelled as succeeding; no claim depends on its failure.
-/

/-- JS Date, reduced to the wall-clock minute count since the epoch. -/
structure JSDate where
  minutes : Int
deriving DecidableEq, Repr

/-- `Date.prototype.getMinutes`: the minute-of-hour field, 0..59. -/
def JSDate.getMinutes (d : JSDate) : Int :=
  d.minutes % 60

/-- A pre-save thought: free-form fields, no identity or timestamps yet. -/
structure Thought where
  automaticThought : String
  alternativeThought : String
  cognitiveDistortions : List (String × Bool)
deriving DecidableEq, Repr

/-- A persisted thought: a `Thought` plus identity and timestamps. -/
structure SavedThought extends Thought where
  uuid : String
  createdAt : JSDate
  updatedAt : JSDate
deriving DecidableEq, Repr

/-- What a stored string is, seen through `JSON.parse`. -/
inductive StoredValue where
  | thoughtVal (t : SavedThought)
  | badVal
  | nullVal
deriving DecidableEq, Repr

/-- The AsyncStorage key-value store, as an association list. -/
abbrev Store := List (String × StoredValue)

/-- `AsyncStorage.getItem`: first binding for the key, `none` when absent. -/
def lookupKey : Store → String → Option StoredValue
  | [], _ => none
  | p :: s, k => if p.1 == k then some p.2 else lookupKey s k

/-- `AsyncStorage.setItem`: replace the binding for the key, or append it. -/
def setKey : Store → String → StoredValue → Store
  | [], k, v => [(k, v)]
  | p :: s, k, v => if p.1 == k then (k, v) :: s else p :: setKey s k v

/-- `AsyncStorage.removeItem`: drop every binding with the key. -/
def removeKey (s : Store) (k : String) : Store :=
  s.filter (fun p => p.1 != k)

/-- `AsyncStorage.multiRemove`: drop every binding whose key is listed. -/
def multiRemove (s : Store) (ks : List String) : Store :=
  s.filter (fun p => !(ks.contains p.1))

/-- `AsyncStorage.getAllKeys`. -/
def getAllKeys (s : Store) : List String :=
  s.map Prod.fst

/-- `AsyncStorage.multiGet`: the rows for the requested keys, in order. -/
def multiGet (s : Store) (ks : List String) : List (String × Option StoredValue) :=
  ks.map (fun k => (k, lookupKey s k))

/-- JS `String.prototype.startsWith`. -/
def jsStartsWith (s pre : String) : Bool :=
  pre.data.isPrefixOf s.data

/-- Replace the first occurrence of `pat` in a char list by `rep`
(the semantics of JS `String.prototype.replace` with a string pattern). -/
def replaceOnceAux (pat rep : List Char) : List Char → List Char
  | [] => if pat.isPrefixOf ([] : List Char) then rep else []
  | c :: cs =>
    if pat.isPrefixOf (c :: cs) then rep ++ (c :: cs).drop pat.length
    else c :: replaceOnceAux pat rep cs

/-- JS `String.prototype.replace` with a string pattern: first occurrence. -/
def jsReplaceOnce (s pat rep : String) : String :=
  ⟨replaceOnceAux pat.data rep.data s.data⟩

/-- `THOUGHTS_KEY_PREFIX` of the source: the ACTIVE namespace. -/
def THOUGHTS_KEY_NS : String := "@Quirk:thoughts:"

/-- `DELETED_KEY_PREFIX` of the source: the ARCHIVED namespace. -/
def DELETED_KEY_NS : String := "@Quirk:deleted-thoughts:"

/-- `EXPIRY_MINUTES = 7 * 24 * 60`: keep deleted thoughts for a week. -/
def EXPIRY_MINUTES : Int := 7 * 24 * 60

/-- `getThoughtKey(info)`. -/
def getThoughtKey (info : String) : String :=
  THOUGHTS_KEY_NS ++ info

/-- `saveThought(saveableThought)`: stringify; skip the write when the
result is missing or empty; otherwise `setItem` under the record's own
`uuid` (a rejection of `setItem` is caught and swallowed, which is the
`setOk = false` case); always resolve with the record itself. -/
def saveThought (encode : SavedThought → Option String) (setOk : Bool)
    (s : Store) (t : SavedThought) : Store × SavedThought :=
  match encode t with
  | none => (s, t)
  | some str =>
    if str.length ≤ 0 then (s, t)
    else if setOk then (setKey s t.uuid (StoredValue.thoughtVal t), t)
    else (s, t)

/-- What `JSON.parse(await AsyncStorage.getItem(uuid))` followed by the
field assignment `thought.updatedAt = ...` does: a missing key or a stored
JS `null` parses to `null` and the assignment throws a TypeError; a bad
string makes `JSON.parse` throw; both land in the enclosing `catch`. -/
inductive ReadOutcome where
  | ok (t : SavedThought)
  | failed
deriving DecidableEq, Repr

/-- Read and parse the record stored at a key, as `deleteExercise` and
`restoreExercise` do before mutating it. -/
def readThought (s : Store) (k : String) : ReadOutcome :=
  match lookupKey s k with
  | some (StoredValue.thoughtVal t) => ReadOutcome.ok t
  | some StoredValue.badVal => ReadOutcome.failed
  | some StoredValue.nullVal => ReadOutcome.failed
  | none => ReadOutcome.failed

/-- `deleteExercise(uuid)`: read and re-stamp the record; on an
ACTIVE-prefixed key, rekey to the ARCHIVED namespace, write there via
`saveThought`, then remove the old key (the code's `.then` runs the
removal whether or not the write inside `saveThought` succeeded, since
`saveThought` swallows its errors); on any other key, remove it outright.
Any throw before that is caught and leaves the store unchanged. -/
def deleteExercise (encode : SavedThought → Option String) (setOk : Bool)
    (now : JSDate) (s : Store) (uuid : String) : Store :=
  match readThought s uuid with
  | ReadOutcome.failed => s
  | ReadOutcome.ok t0 =>
    let t1 : SavedThought := { t0 with updatedAt := now }
    if jsStartsWith uuid THOUGHTS_KEY_NS then
      let t2 : SavedThought :=
        { t1 with uuid := jsReplaceOnce uuid THOUGHTS_KEY_NS DELETED_KEY_NS }
      removeKey (saveThought encode setOk s t2).1 uuid
    else
      removeKey s uuid

/-- `restoreExercise(uuid)`: read and re-stamp the record, rekey
ARCHIVED to ACTIVE, write via `saveThought`, then remove the old key. -/
def restoreExercise (encode : SavedThought → Option String) (setOk : Bool)
    (now : JSDate) (s : Store) (uuid : String) : Store :=
  match readThought s uuid with
  | ReadOutcome.failed => s
  | ReadOutcome.ok t0 =>
    let t1 : SavedThought :=
      { t0 with
        updatedAt := now
        uuid := jsReplaceOnce uuid DELETED_KEY_NS THOUGHTS_KEY_NS }
    removeKey (saveThought encode setOk s t1).1 uuid

/-- The argument of `saveExercise`, discriminated as the source does by
`(thought as SavedThought).uuid === undefined`. -/
inductive ExerciseInput where
  | fresh (t : Thought)
  | existing (t : SavedThought)
deriving DecidableEq, Repr

/-- `saveExercise(thought)`: no identifier means minting a fresh
ACTIVE-namespaced uuid and stamping both timestamps to now; an existing
identifier means refreshing only `updatedAt`; then `saveThought`. -/
def saveExercise (encode : SavedThought → Option String) (setOk : Bool)
    (now : JSDate) (freshId : String) (s : Store)
    (input : ExerciseInput) : Store × SavedThought :=
  match input with
  | ExerciseInput.fresh t =>
    saveThought encode setOk s
      { toThought := t
        uuid := getThoughtKey freshId
        createdAt := now
        updatedAt := now }
  | ExerciseInput.existing t =>
    saveThought encode setOk s { t with updatedAt := now }

/-- The result record of `getExercises`. -/
structure StoredThoughts where
  savedThoughts : List SavedThought
  deletedThoughts : List SavedThought
deriving DecidableEq, Repr

/-- `isExpired` of `getExercises`:
`new Date().getMinutes() - date.getMinutes() > EXPIRY_MINUTES`. -/
def isExpired (now : JSDate) (d : JSDate) : Bool :=
  now.getMinutes - d.getMinutes > EXPIRY_MINUTES

/-- The keys `getExercises` retains from `getAllKeys`. -/
def scanKeys (s : Store) : List String :=
  (getAllKeys s).filter
    (fun k => jsStartsWith k THOUGHTS_KEY_NS || jsStartsWith k DELETED_KEY_NS)

/-- A multiGet row after the filter `n && n[1]`, seen through what
`JSON.parse` will do to its value. -/
inductive RowVal where
  | bad
  | thought (t : SavedThought)
deriving DecidableEq, Repr

/-- The row filter `rows.filter(n => n && n[1])` of `getExercises`,
with the value abstracted by its parse behaviour. -/
def rowOf (r : String × Option StoredValue) : Option (String × RowVal) :=
  match r.2 with
  | some (StoredValue.thoughtVal t) => some (r.1, RowVal.thought t)
  | some StoredValue.badVal => some (r.1, RowVal.bad)
  | some StoredValue.nullVal => none
  | none => none

/-- The `rows.forEach` loop of `getExercises`: partition rows into saved
and deleted thoughts, collecting expired archived keys; `JSON.parse`
throwing on a bad row aborts the whole loop (`none`). -/
def processRows (now : JSDate) :
    List (String × RowVal) →
    List SavedThought × List SavedThought × List String →
    Option (List SavedThought × List SavedThought × List String)
  | [], acc => some acc
  | (_, RowVal.bad) :: _, _ => none
  | (k, RowVal.thought t) :: rest, (sv, dl, out) =>
    if jsStartsWith k THOUGHTS_KEY_NS then
      processRows now rest (sv ++ [t], dl, out)
    else if isExpired now t.updatedAt then
      processRows now rest (sv, dl, out ++ [k])
    else
      processRows now rest (sv, dl ++ [t], out)

/-- `getExercises()`: list keys, keep the two namespaces, multiGet, drop
null rows, parse and partition; a parse throw is caught and yields empty
collections with the store untouched; otherwise the expired archived keys
are removed (the expiry sweep) and the partition returned. -/
def getExercises (now : JSDate) (s : Store) : StoredThoughts × Store :=
  match processRows now ((multiGet s (scanKeys s)).filterMap rowOf) ([], [], []) with
  | none => ({ savedThoughts := [], deletedThoughts := [] }, s)
  | some (sv, dl, out) => ({ savedThoughts := sv, deletedThoughts := dl }, multiRemove s out)

/-! ### Helper lemmas -/

theorem jsStartsWith_append (p r : String) : jsStartsWith (p ++ r) p = true := by
  unfold jsStartsWith
  rw [String.data_append, List.isPrefixOf_iff_prefix]
  exact List.prefix_append _ _

theorem deleted_ns_not_active (r : String) :
    jsStartsWith (DELETED_KEY_NS ++ r) THOUGHTS_KEY_NS = false := by
  unfold jsStartsWith
  rw [String.data_append]
  by_contra hcon
  rw [Bool.not_eq_false, List.isPrefixOf_iff_prefix] at hcon
  have hlen : (16 : Nat) ≤ DELETED_KEY_NS.data.length := by decide
  have htake := List.prefix_iff_eq_take.mp hcon
  rw [List.take_append_of_le_length (by decide)] at htake
  exact absurd htake (by decide)

theorem active_key_ne_deleted_key (a b : String) :
    THOUGHTS_KEY_NS ++ a ≠ DELETED_KEY_NS ++ b := by
  intro h
  have h1 := jsStartsWith_append THOUGHTS_KEY_NS a
  rw [h, deleted_ns_not_active] at h1
  exact Bool.false_ne_true h1

theorem replaceOnceAux_pre (pat rep l : List Char) :
    replaceOnceAux pat rep (pat ++ l) = rep ++ l := by
  have hpre : pat.isPrefixOf (pat ++ l) = true := by
    rw [List.isPrefixOf_iff_prefix]
    exact List.prefix_append _ _
  cases pat with
  | nil =>
    cases l with
    | nil => simp [replaceOnceAux]
    | cons c cs => simp [replaceOnceAux]
  | cons a as =>
    show replaceOnceAux (a :: as) rep ((a :: as) ++ l) = rep ++ l
    rw [List.cons_append]
    unfold replaceOnceAux
    rw [← List.cons_append, hpre]
    simp [List.drop_left]

theorem jsReplaceOnce_head (p r rep : String) :
    jsReplaceOnce (p ++ r) p rep = rep ++ r := by
  unfold jsReplaceOnce
  rw [String.data_append, replaceOnceAux_pre]
  rfl

theorem lookupKey_setKey_self (s : Store) (k : String) (v : StoredValue) :
    lookupKey (setKey s k v) k = some v := by
  induction s with
  | nil => simp [setKey, lookupKey]
  | cons p s ih =>
    by_cases h : p.1 == k
    · simp [setKey, h, lookupKey]
    · simp [setKey, h, lookupKey, ih]

theorem lookupKey_setKey_ne (s : Store) (k k' : String) (v : StoredValue)
    (h : k' ≠ k) :
    lookupKey (setKey s k v) k' = lookupKey s k' := by
  induction s with
  | nil =>
    simp [setKey, lookupKey, beq_iff_eq]
    intro he
    exact absurd he.symm h
  | cons p s ih =>
    by_cases hp : p.1 == k
    · have hp' : p.1 = k := by simpa [beq_iff_eq] using hp
      simp [setKey, hp, lookupKey, beq_iff_eq, hp', Ne.symm h]
    · simp [setKey, hp, lookupKey, ih]

theorem lookupKey_removeKey_self (s : Store) (k : String) :
    lookupKey (removeKey s k) k = none := by
  induction s with
  | nil => rfl
  | cons p s ih =>
    simp only [removeKey, List.filter_cons] at *
    by_cases h : p.1 = k
    · simp [h, ih]
    · simp [h, lookupKey, ih]

theorem lookupKey_removeKey_ne (s : Store) (k k' : String) (h : k' ≠ k) :
    lookupKey (removeKey s k) k' = lookupKey s k' := by
  induction s with
  | nil => rfl
  | cons p s ih =>
    simp only [removeKey, List.filter_cons] at *
    by_cases hp : p.1 = k
    · have hne : (p.1 == k') = false := by
        simp [beq_iff_eq, hp]
        exact fun he => h he.symm
      simp [hp, lookupKey, hne, ih, Ne.symm h]
    · simp [hp, lookupKey, ih]

theorem removeKey_key_not_mem (s : Store) (k : String) :
    k ∉ getAllKeys (removeKey s k) := by
  intro hmem
  unfold getAllKeys removeKey at hmem
  obtain ⟨p, hp, hpk⟩ := List.mem_map.mp hmem
  have hf := List.of_mem_filter hp
  rw [hpk] at hf
  simp at hf

theorem multiRemove_nil (s : Store) : multiRemove s [] = s := by
  simp [multiRemove]

theorem getMinutes_sub_le (now d : JSDate) :
    now.getMinutes - d.getMinutes ≤ 59 := by
  unfold JSDate.getMinutes
  omega

theorem isExpired_eq_false (now d : JSDate) : isExpired now d = false := by
  unfold isExpired JSDate.getMinutes EXPIRY_MINUTES
  simp only [decide_eq_false_iff_not, not_lt]
  omega

/-- The active records among the parsed rows, as the spec's step 4 words
it: the rows of the ACTIVE namespace. -/
def activesOf (rows : List (String × RowVal)) : List SavedThought :=
  rows.filterMap (fun r =>
    match r.2 with
    | RowVal.thought t =>
      if jsStartsWith r.1 THOUGHTS_KEY_NS then some t else none
    | RowVal.bad => none)

/-- The archived records among the parsed rows that are not expired, as
the spec's step 5 words it. -/
def archivedOf (now : JSDate) (rows : List (String × RowVal)) : List SavedThought :=
  rows.filterMap (fun r =>
    match r.2 with
    | RowVal.thought t =>
      if jsStartsWith r.1 THOUGHTS_KEY_NS then none
      else if isExpired now t.updatedAt then none
      else some t
    | RowVal.bad => none)

theorem processRows_no_bad (now : JSDate) (rows : List (String × RowVal))
    (h : ∀ r ∈ rows, r.2 ≠ RowVal.bad) (sv dl : List SavedThought)
    (out : List String) :
    processRows now rows (sv, dl, out) =
      some (sv ++ activesOf rows, dl ++ archivedOf now rows, out) := by
  induction rows generalizing sv dl out with
  | nil => simp [processRows, activesOf, archivedOf]
  | cons r rest ih =>
    obtain ⟨k, v⟩ := r
    cases v with
    | bad => exact absurd rfl (h (k, RowVal.bad) (List.mem_cons_self _ _))
    | thought t =>
      have hrest : ∀ r ∈ rest, r.2 ≠ RowVal.bad :=
        fun r hr => h r (List.mem_cons_of_mem _ hr)
      by_cases hk : jsStartsWith k THOUGHTS_KEY_NS
      · simp [processRows, hk, ih hrest, activesOf, archivedOf,
          List.filterMap_cons]
      · simp [processRows, hk, isExpired_eq_false, ih hrest, activesOf,
          archivedOf, List.filterMap_cons]

theorem processRows_has_bad (now : JSDate) (rows : List (String × RowVal))
    (h : ∃ r ∈ rows, r.2 = RowVal.bad)
    (acc : List SavedThought × List SavedThought × List String) :
    processRows now rows acc = none := by
  induction rows generalizing acc with
  | nil => simp at h
  | cons r rest ih =>
    obtain ⟨k, v⟩ := r
    cases v with
    | bad => rfl
    | thought t =>
      have h' : ∃ r ∈ rest, r.2 = RowVal.bad := by
        obtain ⟨r', hr', hb⟩ := h
        rcases List.mem_cons.mp hr' with he | hm
        · rw [he] at hb
          simp at hb
        · exact ⟨r', hm, hb⟩
      obtain ⟨sv, dl, out⟩ := acc
      by_cases hk : jsStartsWith k THOUGHTS_KEY_NS
      · simp only [processRows, hk, if_true]
        exact ih h' _
      · simp only [processRows, hk, if_false, Bool.false_eq_true,
          isExpired_eq_false]
        exact ih h' _

theorem lookupKey_of_mem (s : Store) (p : String × StoredValue)
    (hnd : (s.map Prod.fst).Nodup) (hp : p ∈ s) :
    lookupKey s p.1 = some p.2 := by
  induction s with
  | nil => simp at hp
  | cons q rest ih =>
    rw [List.map_cons, List.nodup_cons] at hnd
    rcases List.mem_cons.mp hp with he | hm
    · rw [he]
      simp [lookupKey]
    · have hne : q.1 ≠ p.1 := by
        intro hq
        exact hnd.1 (hq ▸ List.mem_map_of_mem Prod.fst hm)
      simp only [lookupKey, beq_iff_eq, if_neg hne]
      exact ih hnd.2 hm

theorem rows_of_nodup (s : Store) (hnd : (s.map Prod.fst).Nodup)
    (pred : String → Bool) :
    (multiGet s ((s.map Prod.fst).filter pred)).filterMap rowOf
      = s.filterMap (fun p => if pred p.1 then rowOf (p.1, some p.2) else none) := by
  have h1 : multiGet s ((s.map Prod.fst).filter pred)
      = (s.filter (pred ∘ Prod.fst)).map (fun p => (p.1, some p.2)) := by
    unfold multiGet
    rw [List.filter_map, List.map_map]
    apply List.map_congr_left
    intro p hp
    have hps : p ∈ s := List.mem_of_mem_filter hp
    show (p.1, lookupKey s p.1) = (p.1, some p.2)
    rw [lookupKey_of_mem s p hnd hps]
  rw [h1, List.filterMap_map]
  have h2 := List.filterMap_filter (pred ∘ Prod.fst)
    (fun p : String × StoredValue => rowOf (p.1, some p.2)) s
  calc (s.filter (pred ∘ Prod.fst)).filterMap
        (rowOf ∘ fun p : String × StoredValue => (p.1, some p.2))
      = (s.filter (pred ∘ Prod.fst)).filterMap
        (fun p : String × StoredValue => rowOf (p.1, some p.2)) := rfl
    _ = s.filterMap
        (fun p => if (pred ∘ Prod.fst) p then rowOf (p.1, some p.2) else none) := h2
    _ = s.filterMap
        (fun p => if pred p.1 then rowOf (p.1, some p.2) else none) := rfl

theorem processRows_out_eq (now : JSDate) (rows : List (String × RowVal)) :
    ∀ (sv dl : List SavedThought) (out : List String)
      (res : List SavedThought × List SavedThought × List String),
      processRows now rows (sv, dl, out) = some res → res.2.2 = out := by
  induction rows with
  | nil =>
    intro sv dl out res h
    simp [processRows] at h
    rw [← h]
  | cons r rest ih =>
    intro sv dl out res h
    obtain ⟨k, v⟩ := r
    cases v with
    | bad => simp [processRows] at h
    | thought t =>
      by_cases hk : jsStartsWith k THOUGHTS_KEY_NS
      · rw [show processRows now ((k, RowVal.thought t) :: rest) (sv, dl, out)
              = processRows now rest (sv ++ [t], dl, out) from by
            simp [processRows, hk]] at h
        exact ih _ _ _ _ h
      · rw [show processRows now ((k, RowVal.thought t) :: rest) (sv, dl, out)
              = processRows now rest (sv, dl ++ [t], out) from by
            simp [processRows, hk, isExpired_eq_false]] at h
        exact ih _ _ _ _ h

/-- A sample thought body used by the concrete instances below. -/
def sampleBody : Thought :=
  { automaticThought := "auto"
    alternativeThought := "alt"
    cognitiveDistortions := [("all-or-nothing", true)] }

/-- An encoder that always yields a nonempty string, as json-stringify-safe
does on a plain record. -/
def goodEncode : SavedThought → Option String := fun _ => some "s"

/-- C10: the expiry predicate evaluates a difference of minute-of-hour values, each in
0..59, so the difference is at most 59 and never exceeds EXPIRY_MINUTES = 10080;
isExpired returns false for every pair of dates, and the expiry sweep of getExercises
never removes anything from the store. -/
theorem isExpired_constant_false :
    (∀ now d : JSDate, now.getMinutes - d.getMinutes ≤ 59 ∧ isExpired now d = false)
      ∧ ∀ (now : JSDate) (s : Store), (getExercises now s).2 = s := by
  constructor
  · intro now d
    exact ⟨getMinutes_sub_le now d, isExpired_eq_false now d⟩
  · intro now s
    unfold getExercises
    cases hpr : processRows now ((multiGet s (scanKeys s)).filterMap rowOf) ([], [], []) with
    | none => rfl
    | some acc =>
      have hout := processRows_out_eq now _ [] [] [] acc hpr
      obtain ⟨sv, dl, out⟩ := acc
      simp only at hout
      rw [hout]
      simp [multiRemove_nil]

/-- An archived record whose updatedAt lies 10081 minutes (seven days plus one
minute) before `nowAfterWeek`. -/
def staleArchived : SavedThought :=
  { toThought := sampleBody
    uuid := "@Quirk:deleted-thoughts:stale"
    createdAt := ⟨0⟩
    updatedAt := ⟨0⟩ }

def staleStore : Store :=
  [("@Quirk:deleted-thoughts:stale", StoredValue.thoughtVal staleArchived)]

def nowAfterWeek : JSDate := ⟨10081⟩

/-- C1 (code bug): an archived record whose updatedAt is a full week plus one minute
older than now — beyond the retention threshold, so the claim says it is excluded and
scheduled for removal — is retained in the returned archived set, and nothing is
scheduled for removal, because isExpired compares minute-of-hour values. -/
theorem expired_record_retained :
    nowAfterWeek.minutes - staleArchived.updatedAt.minutes > EXPIRY_MINUTES
      ∧ getExercises nowAfterWeek staleStore
          = ({ savedThoughts := [], deletedThoughts := [staleArchived] }, staleStore) := by
  constructor
  · decide
  · rfl

/-- A record stored under the ACTIVE namespace only. -/
def activeRecord : SavedThought :=
  { toThought := sampleBody
    uuid := "@Quirk:thoughts:r1"
    createdAt := ⟨0⟩
    updatedAt := ⟨0⟩ }

def activeOnlyStore : Store :=
  [("@Quirk:thoughts:r1", StoredValue.thoughtVal activeRecord)]

/-- C2 (code bug): when the write under the ARCHIVED key fails during deleteExercise on
an ACTIVE-prefixed key (setOk = false: saveThought catches the setItem rejection and
resolves anyway), the removal of the old key still runs, leaving the record absent
from both namespaces. -/
theorem archive_write_failure_loses_record :
    deleteExercise goodEncode false ⟨5⟩ activeOnlyStore "@Quirk:thoughts:r1" = []
      ∧ lookupKey (deleteExercise goodEncode false ⟨5⟩ activeOnlyStore "@Quirk:thoughts:r1")
          "@Quirk:thoughts:r1" = none
      ∧ lookupKey (deleteExercise goodEncode false ⟨5⟩ activeOnlyStore "@Quirk:thoughts:r1")
          "@Quirk:deleted-thoughts:r1" = none := by
  refine ⟨?_, ?_, ?_⟩ <;> rfl

/-- A valid record alongside corrupt entries. -/
def validRecord : SavedThought :=
  { toThought := sampleBody
    uuid := "@Quirk:thoughts:good"
    createdAt := ⟨0⟩
    updatedAt := ⟨0⟩ }

def corruptMixStore : Store :=
  [("@Quirk:thoughts:good", StoredValue.thoughtVal validRecord),
   ("@Quirk:thoughts:corrupt", StoredValue.badVal),
   ("@Quirk:thoughts:nullrow", StoredValue.nullVal)]

/-- C3 counterexample: with one valid record, one entry whose value is an unparsable
string and one null row stored, getExercises returns no records at all — not exactly
the valid ones. -/
theorem corrupt_entry_drops_everything :
    lookupKey corruptMixStore "@Quirk:thoughts:good"
        = some (StoredValue.thoughtVal validRecord)
      ∧ (getExercises ⟨0⟩ corruptMixStore).1
          = { savedThoughts := [], deletedThoughts := [] } := by
  refine ⟨?_, ?_⟩ <;> rfl

/-- C3 (amended): entries whose value is missing or null are dropped individually and
the surviving records are returned partitioned by namespace, with no error surfaced to
the caller; but when any retained entry's value fails to parse, getExercises catches
the JSON.parse throw and returns empty collections — every record is dropped, not just
the unparsable entry. -/
theorem corrupt_tolerance (now : JSDate) (s : Store)
    (hnd : (s.map Prod.fst).Nodup) :
    ((∀ p ∈ s, p.2 ≠ StoredValue.badVal) →
        (getExercises now s).1.savedThoughts
            = s.filterMap (fun p =>
                match p.2 with
                | StoredValue.thoughtVal t =>
                  if jsStartsWith p.1 THOUGHTS_KEY_NS then some t else none
                | _ => none)
          ∧ (getExercises now s).1.deletedThoughts
            = s.filterMap (fun p =>
                match p.2 with
                | StoredValue.thoughtVal t =>
                  if jsStartsWith p.1 THOUGHTS_KEY_NS then none
                  else if jsStartsWith p.1 DELETED_KEY_NS then some t
                  else none
                | _ => none))
      ∧ ((∃ p ∈ s, p.2 = StoredValue.badVal
            ∧ (jsStartsWith p.1 THOUGHTS_KEY_NS || jsStartsWith p.1 DELETED_KEY_NS) = true) →
          (getExercises now s).1 = { savedThoughts := [], deletedThoughts := [] }) := by
  have hrows : (multiGet s (scanKeys s)).filterMap rowOf
      = s.filterMap (fun p =>
          if (jsStartsWith p.1 THOUGHTS_KEY_NS || jsStartsWith p.1 DELETED_KEY_NS)
          then rowOf (p.1, some p.2) else none) := by
    unfold scanKeys getAllKeys
    exact rows_of_nodup s hnd _
  constructor
  · intro hnb
    have hnobad : ∀ r ∈ (multiGet s (scanKeys s)).filterMap rowOf, r.2 ≠ RowVal.bad := by
      intro r hr
      rw [hrows] at hr
      obtain ⟨p, hp, hF⟩ := List.mem_filterMap.mp hr
      by_cases hpred : (jsStartsWith p.1 THOUGHTS_KEY_NS || jsStartsWith p.1 DELETED_KEY_NS) = true
      · rw [if_pos hpred] at hF
        cases hv : p.2 with
        | thoughtVal t =>
          rw [hv] at hF
          simp only [rowOf, Option.some.injEq] at hF
          rw [← hF]
          simp
        | badVal => exact absurd hv (hnb p hp)
        | nullVal =>
          rw [hv] at hF
          simp [rowOf] at hF
      · rw [if_neg hpred] at hF
        simp at hF
    have hpr := processRows_no_bad now _ hnobad [] [] []
    unfold getExercises
    rw [hpr]
    simp only [List.nil_append]
    constructor
    · rw [hrows]
      unfold activesOf
      rw [List.filterMap_filterMap]
      apply List.filterMap_congr
      intro p hp
      cases hv : p.2 with
      | thoughtVal t =>
        by_cases hT : jsStartsWith p.1 THOUGHTS_KEY_NS = true
        · simp [rowOf, hT]
        · rw [Bool.not_eq_true] at hT
          by_cases hD : jsStartsWith p.1 DELETED_KEY_NS = true
          · simp [rowOf, hT, hD]
          · rw [Bool.not_eq_true] at hD
            simp [rowOf, hT, hD]
      | badVal => exact absurd hv (hnb p hp)
      | nullVal =>
        by_cases hpred : (jsStartsWith p.1 THOUGHTS_KEY_NS || jsStartsWith p.1 DELETED_KEY_NS) = true
        · simp [rowOf, hpred]
        · simp [rowOf, hpred]
    · rw [hrows]
      unfold archivedOf
      rw [List.filterMap_filterMap]
      apply List.filterMap_congr
      intro p hp
      cases hv : p.2 with
      | thoughtVal t =>
        by_cases hT : jsStartsWith p.1 THOUGHTS_KEY_NS = true
        · simp [rowOf, hT]
        · rw [Bool.not_eq_true] at hT
          by_cases hD : jsStartsWith p.1 DELETED_KEY_NS = true
          · simp [rowOf, hT, hD, isExpired_eq_false]
          · rw [Bool.not_eq_true] at hD
            simp [rowOf, hT, hD]
      | badVal => exact absurd hv (hnb p hp)
      | nullVal =>
        by_cases hpred : (jsStartsWith p.1 THOUGHTS_KEY_NS || jsStartsWith p.1 DELETED_KEY_NS) = true
        · simp [rowOf, hpred]
        · simp [rowOf, hpred]
  · intro hbad
    obtain ⟨p, hp, hbv, hpred⟩ := hbad
    have hmem : (p.1, RowVal.bad) ∈ (multiGet s (scanKeys s)).filterMap rowOf := by
      rw [hrows]
      apply List.mem_filterMap.mpr
      refine ⟨p, hp, ?_⟩
      rw [if_pos hpred, hbv]
      rfl
    have hpr := processRows_has_bad now _ ⟨(p.1, RowVal.bad), hmem, rfl⟩ ([], [], [])
    unfold getExercises
    rw [hpr]

/-- The same identifier suffix stored under both namespaces, the archived
copy carrying the later updatedAt. -/
def dupActive : SavedThought :=
  { toThought := sampleBody
    uuid := "@Quirk:thoughts:dup"
    createdAt := ⟨0⟩
    updatedAt := ⟨0⟩ }

def dupArchived : SavedThought :=
  { toThought := sampleBody
    uuid := "@Quirk:deleted-thoughts:dup"
    createdAt := ⟨0⟩
    updatedAt := ⟨9⟩ }

def dupStore : Store :=
  [("@Quirk:thoughts:dup", StoredValue.thoughtVal dupActive),
   ("@Quirk:deleted-thoughts:dup", StoredValue.thoughtVal dupArchived)]

/-- C4 counterexample: with the same suffix stored under both namespaces and the
archived copy carrying the later updatedAt, getExercises returns both copies — the
active one among savedThoughts and the archived one among deletedThoughts — not only
the copy with the later updatedAt. -/
theorem mid_move_record_returned_twice :
    dupActive.updatedAt.minutes < dupArchived.updatedAt.minutes
      ∧ (getExercises ⟨9⟩ dupStore).1
          = { savedThoughts := [dupActive], deletedThoughts := [dupArchived] } := by
  refine ⟨?_, ?_⟩ <;> decide

/-- C4 (amended): the read path performs no de-duplication: whenever the same
identifier suffix is present under both the ACTIVE and the ARCHIVED key, getExercises
returns the ACTIVE copy in savedThoughts and the ARCHIVED copy in deletedThoughts,
regardless of which updatedAt is later. -/
theorem no_dedup_on_mid_move (now : JSDate) (sfx : String) (t1 t2 : SavedThought) :
    (getExercises now
        [(THOUGHTS_KEY_NS ++ sfx, StoredValue.thoughtVal t1),
         (DELETED_KEY_NS ++ sfx, StoredValue.thoughtVal t2)]).1
      = { savedThoughts := [t1], deletedThoughts := [t2] } := by
  have hne : ((THOUGHTS_KEY_NS ++ sfx : String) == (DELETED_KEY_NS ++ sfx : String)) = false :=
    beq_eq_false_iff_ne.mpr (active_key_ne_deleted_key sfx sfx)
  simp [getExercises, scanKeys, getAllKeys, multiGet, lookupKey, rowOf, processRows,
    jsStartsWith_append, deleted_ns_not_active, isExpired_eq_false, multiRemove, hne]

theorem saveThought_snd (encode : SavedThought → Option String) (setOk : Bool)
    (s : Store) (t : SavedThought) : (saveThought encode setOk s t).2 = t := by
  unfold saveThought
  cases encode t with
  | none => rfl
  | some str =>
    by_cases h : str.length ≤ 0
    · simp [h]
    · cases setOk <;> simp [h]

theorem saveThought_writes (encode : SavedThought → Option String) (s : Store)
    (t : SavedThought) (str : String) (hEnc : encode t = some str)
    (hStr : 0 < str.length) :
    saveThought encode true s t = (setKey s t.uuid (StoredValue.thoughtVal t), t) := by
  unfold saveThought
  rw [hEnc]
  have h : ¬ str.length ≤ 0 := by omega
  simp [h]

/-- C5: when the payload fails to serialize — the encoded string is missing or
empty — saveThought skips the write entirely, leaves the store exactly as it was,
and returns the original in-memory record to the caller. -/
theorem save_serialize_failure_noop (encode : SavedThought → Option String)
    (setOk : Bool) (s : Store) (t : SavedThought)
    (h : encode t = none ∨ encode t = some "") :
    saveThought encode setOk s t = (s, t) := by
  unfold saveThought
  rcases h with h | h <;> simp [h]

/-- Witness for C5: a concrete record whose encoding is missing; the store (here
holding one unrelated record) is untouched and the record is returned. -/
theorem save_serialize_failure_noop_witness :
    saveThought (fun _ => none) true activeOnlyStore staleArchived
      = (activeOnlyStore, staleArchived) :=
  save_serialize_failure_noop (fun _ => none) true activeOnlyStore staleArchived
    (Or.inl rfl)

/-- C6: for an input without identifier, saveExercise returns a record carrying a
freshly minted ACTIVE-namespaced identifier with createdAt and updatedAt both stamped
to now; for an input with an identifier, only updatedAt is refreshed — identifier
(namespace included) and createdAt are unchanged — and the record is written in place
under its existing key. -/
theorem save_mints_or_updates (encode : SavedThought → Option String)
    (now : JSDate) (freshId : String) (s : Store) (th : Thought)
    (t : SavedThought) (str : String)
    (hEnc : encode { t with updatedAt := now } = some str)
    (hStr : 0 < str.length) :
    ((saveExercise encode true now freshId s (ExerciseInput.fresh th)).2.uuid
        = getThoughtKey freshId
      ∧ jsStartsWith (saveExercise encode true now freshId s (ExerciseInput.fresh th)).2.uuid
          THOUGHTS_KEY_NS = true
      ∧ (saveExercise encode true now freshId s (ExerciseInput.fresh th)).2.createdAt = now
      ∧ (saveExercise encode true now freshId s (ExerciseInput.fresh th)).2.updatedAt = now)
    ∧ ((saveExercise encode true now freshId s (ExerciseInput.existing t)).2.uuid = t.uuid
      ∧ (saveExercise encode true now freshId s (ExerciseInput.existing t)).2.createdAt
          = t.createdAt
      ∧ (saveExercise encode true now freshId s (ExerciseInput.existing t)).2.updatedAt = now
      ∧ (saveExercise encode true now freshId s (ExerciseInput.existing t)).1
          = setKey s t.uuid (StoredValue.thoughtVal { t with updatedAt := now })) := by
  have hw := saveThought_writes encode s { t with updatedAt := now } str hEnc hStr
  have hf : saveExercise encode true now freshId s (ExerciseInput.fresh th)
      = saveThought encode true s
          { toThought := th
            uuid := getThoughtKey freshId
            createdAt := now
            updatedAt := now } := rfl
  have he : saveExercise encode true now freshId s (ExerciseInput.existing t)
      = saveThought encode true s { t with updatedAt := now } := rfl
  constructor
  · rw [hf, saveThought_snd]
    refine ⟨rfl, ?_, rfl, rfl⟩
    unfold getThoughtKey
    exact jsStartsWith_append THOUGHTS_KEY_NS freshId
  · rw [he, hw]
    exact ⟨rfl, rfl, rfl, rfl⟩

/-- Witness for C6 at concrete inputs. -/
theorem save_mints_or_updates_witness :
    ((saveExercise goodEncode true ⟨3⟩ "w6" [] (ExerciseInput.fresh sampleBody)).2.uuid
        = getThoughtKey "w6"
      ∧ jsStartsWith (saveExercise goodEncode true ⟨3⟩ "w6" []
          (ExerciseInput.fresh sampleBody)).2.uuid THOUGHTS_KEY_NS = true
      ∧ (saveExercise goodEncode true ⟨3⟩ "w6" [] (ExerciseInput.fresh sampleBody)).2.createdAt
          = ⟨3⟩
      ∧ (saveExercise goodEncode true ⟨3⟩ "w6" [] (ExerciseInput.fresh sampleBody)).2.updatedAt
          = ⟨3⟩)
    ∧ ((saveExercise goodEncode true ⟨3⟩ "w6" [] (ExerciseInput.existing activeRecord)).2.uuid
        = activeRecord.uuid
      ∧ (saveExercise goodEncode true ⟨3⟩ "w6" []
          (ExerciseInput.existing activeRecord)).2.createdAt = activeRecord.createdAt
      ∧ (saveExercise goodEncode true ⟨3⟩ "w6" []
          (ExerciseInput.existing activeRecord)).2.updatedAt = ⟨3⟩
      ∧ (saveExercise goodEncode true ⟨3⟩ "w6" [] (ExerciseInput.existing activeRecord)).1
          = setKey [] activeRecord.uuid
              (StoredValue.thoughtVal { activeRecord with updatedAt := ⟨3⟩ })) :=
  save_mints_or_updates goodEncode ⟨3⟩ "w6" [] sampleBody activeRecord "s" rfl (by decide)

/-- C7: archiving a record stored under the ACTIVE namespace (deleteExercise on its
ACTIVE-prefixed key) and then restoring the resulting archived identifier yields the
record stored again under the ACTIVE key with the same identifier suffix. -/
theorem archive_then_restore (encode : SavedThought → Option String)
    (now1 now2 : JSDate) (s : Store) (sfx : String) (t : SavedThought)
    (hEnc : ∀ u : SavedThought, ∃ str : String, encode u = some str ∧ 0 < str.length)
    (hLook : lookupKey s (THOUGHTS_KEY_NS ++ sfx) = some (StoredValue.thoughtVal t)) :
    lookupKey
        (restoreExercise encode true now2
          (deleteExercise encode true now1 s (THOUGHTS_KEY_NS ++ sfx))
          (DELETED_KEY_NS ++ sfx))
        (THOUGHTS_KEY_NS ++ sfx)
      = some (StoredValue.thoughtVal
          { t with updatedAt := now2, uuid := THOUGHTS_KEY_NS ++ sfx }) := by
  have hTD : (THOUGHTS_KEY_NS ++ sfx) ≠ (DELETED_KEY_NS ++ sfx) :=
    active_key_ne_deleted_key sfx sfx
  have hrt : readThought s (THOUGHTS_KEY_NS ++ sfx) = ReadOutcome.ok t := by
    unfold readThought
    rw [hLook]
  obtain ⟨str1, henc1, hpos1⟩ :=
    hEnc { t with updatedAt := now1, uuid := DELETED_KEY_NS ++ sfx }
  have hdel : deleteExercise encode true now1 s (THOUGHTS_KEY_NS ++ sfx)
      = removeKey
          (setKey s (DELETED_KEY_NS ++ sfx)
            (StoredValue.thoughtVal
              { t with updatedAt := now1, uuid := DELETED_KEY_NS ++ sfx }))
          (THOUGHTS_KEY_NS ++ sfx) := by
    unfold deleteExercise
    rw [hrt]
    simp only [jsStartsWith_append, if_true, jsReplaceOnce_head]
    rw [saveThought_writes encode s
      { t with updatedAt := now1, uuid := DELETED_KEY_NS ++ sfx } str1 henc1 hpos1]
  set s1 := removeKey
      (setKey s (DELETED_KEY_NS ++ sfx)
        (StoredValue.thoughtVal { t with updatedAt := now1, uuid := DELETED_KEY_NS ++ sfx }))
      (THOUGHTS_KEY_NS ++ sfx) with hs1
  have hlook1 : lookupKey s1 (DELETED_KEY_NS ++ sfx)
      = some (StoredValue.thoughtVal
          { t with updatedAt := now1, uuid := DELETED_KEY_NS ++ sfx }) := by
    rw [hs1, lookupKey_removeKey_ne _ _ _ (Ne.symm hTD), lookupKey_setKey_self]
  have hrt1 : readThought s1 (DELETED_KEY_NS ++ sfx)
      = ReadOutcome.ok { t with updatedAt := now1, uuid := DELETED_KEY_NS ++ sfx } := by
    unfold readThought
    rw [hlook1]
  obtain ⟨str2, henc2, hpos2⟩ :=
    hEnc { t with updatedAt := now2, uuid := THOUGHTS_KEY_NS ++ sfx }
  have hres : restoreExercise encode true now2 s1 (DELETED_KEY_NS ++ sfx)
      = removeKey
          (setKey s1 (THOUGHTS_KEY_NS ++ sfx)
            (StoredValue.thoughtVal
              { t with updatedAt := now2, uuid := THOUGHTS_KEY_NS ++ sfx }))
          (DELETED_KEY_NS ++ sfx) := by
    unfold restoreExercise
    rw [hrt1]
    simp only [jsReplaceOnce_head]
    rw [saveThought_writes encode s1
      { t with updatedAt := now2, uuid := THOUGHTS_KEY_NS ++ sfx } str2 henc2 hpos2]
  rw [hdel, hres]
  rw [lookupKey_removeKey_ne _ _ _ hTD, lookupKey_setKey_self]

/-- Witness for C7: a concrete active record archived and restored. -/
theorem archive_then_restore_witness :
    lookupKey
        (restoreExercise goodEncode true ⟨8⟩
          (deleteExercise goodEncode true ⟨7⟩ activeOnlyStore (THOUGHTS_KEY_NS ++ "r1"))
          (DELETED_KEY_NS ++ "r1"))
        (THOUGHTS_KEY_NS ++ "r1")
      = some (StoredValue.thoughtVal
          { activeRecord with updatedAt := ⟨8⟩, uuid := THOUGHTS_KEY_NS ++ "r1" }) :=
  archive_then_restore goodEncode ⟨7⟩ ⟨8⟩ activeOnlyStore "r1" activeRecord
    (fun _ => ⟨"s", rfl, by decide⟩) rfl

/-- C8 (amended): on an ARCHIVED-namespaced key whose stored value parses as a record,
deleteExercise removes the key outright — no rekey — so the key maps to nothing and is
absent from the keys the next load scans; the operation does, however, first read and
parse the stored value (to restamp updatedAt), so on a missing or unparsable value the
parse throws, the error is swallowed, and the key is not removed. -/
theorem permanent_delete_terminal (encode : SavedThought → Option String)
    (setOk : Bool) (now : JSDate) (s : Store) (sfx : String) (t : SavedThought)
    (hLook : lookupKey s (DELETED_KEY_NS ++ sfx) = some (StoredValue.thoughtVal t)) :
    deleteExercise encode setOk now s (DELETED_KEY_NS ++ sfx)
        = removeKey s (DELETED_KEY_NS ++ sfx)
      ∧ lookupKey (removeKey s (DELETED_KEY_NS ++ sfx)) (DELETED_KEY_NS ++ sfx) = none
      ∧ (DELETED_KEY_NS ++ sfx) ∉ getAllKeys (removeKey s (DELETED_KEY_NS ++ sfx)) := by
  have hrt : readThought s (DELETED_KEY_NS ++ sfx) = ReadOutcome.ok t := by
    unfold readThought
    rw [hLook]
  refine ⟨?_, lookupKey_removeKey_self s _, removeKey_key_not_mem s _⟩
  unfold deleteExercise
  rw [hrt]
  simp [deleted_ns_not_active]

/-- Witness for C8: a concrete archived record permanently deleted. -/
theorem permanent_delete_terminal_witness :
    deleteExercise goodEncode true ⟨1⟩
        [("@Quirk:deleted-thoughts:w8", StoredValue.thoughtVal staleArchived)]
        (DELETED_KEY_NS ++ "w8")
      = removeKey [("@Quirk:deleted-thoughts:w8", StoredValue.thoughtVal staleArchived)]
          (DELETED_KEY_NS ++ "w8")
      ∧ lookupKey
          (removeKey [("@Quirk:deleted-thoughts:w8", StoredValue.thoughtVal staleArchived)]
            (DELETED_KEY_NS ++ "w8"))
          (DELETED_KEY_NS ++ "w8") = none
      ∧ (DELETED_KEY_NS ++ "w8")
          ∉ getAllKeys
              (removeKey [("@Quirk:deleted-thoughts:w8", StoredValue.thoughtVal staleArchived)]
                (DELETED_KEY_NS ++ "w8")) :=
  permanent_delete_terminal goodEncode true ⟨1⟩
    [("@Quirk:deleted-thoughts:w8", StoredValue.thoughtVal staleArchived)]
    "w8" staleArchived rfl

/-- An archived key holding an unparsable value. -/
def corruptArchivedStore : Store :=
  [("@Quirk:deleted-thoughts:x8", StoredValue.badVal)]

/-- C8 counterexample: permanent delete is not a bare key removal: on an archived key
holding an unparsable value, the read-back parse throws, the error is swallowed, and
the key is not removed at all. -/
theorem permanent_delete_corrupt_key_kept :
    deleteExercise goodEncode true ⟨0⟩ corruptArchivedStore "@Quirk:deleted-thoughts:x8"
        = corruptArchivedStore
      ∧ lookupKey corruptArchivedStore "@Quirk:deleted-thoughts:x8"
          = some StoredValue.badVal := by
  refine ⟨?_, ?_⟩ <;> rfl

/-- The invariant of claim C9: every stored record's uuid field equals the storage key
it sits under (hence the namespace prefix of uuid matches the partition the record is
in). -/
def UuidKeyInv (s : Store) : Prop :=
  ∀ p ∈ s, ∀ t : SavedThought, p.2 = StoredValue.thoughtVal t → t.uuid = p.1

theorem mem_setKey (s : Store) (k : String) (v : StoredValue)
    (p : String × StoredValue) (hp : p ∈ setKey s k v) : p = (k, v) ∨ p ∈ s := by
  induction s with
  | nil =>
    unfold setKey at hp
    exact Or.inl (List.mem_singleton.mp hp)
  | cons q rest ih =>
    unfold setKey at hp
    by_cases hq : (q.1 == k) = true
    · rw [if_pos hq] at hp
      rcases List.mem_cons.mp hp with he | hm
      · exact Or.inl he
      · exact Or.inr (List.mem_cons_of_mem _ hm)
    · rw [if_neg hq] at hp
      rcases List.mem_cons.mp hp with he | hm
      · exact Or.inr (he ▸ List.mem_cons_self _ _)
      · rcases ih hm with h1 | h2
        · exact Or.inl h1
        · exact Or.inr (List.mem_cons_of_mem _ h2)

theorem UuidKeyInv_sub (s s' : Store) (hsub : ∀ p ∈ s', p ∈ s)
    (h : UuidKeyInv s) : UuidKeyInv s' :=
  fun p hp u hu => h p (hsub p hp) u hu

theorem UuidKeyInv_removeKey (s : Store) (k : String) (h : UuidKeyInv s) :
    UuidKeyInv (removeKey s k) :=
  UuidKeyInv_sub s _ (fun _ hp => List.mem_of_mem_filter hp) h

theorem UuidKeyInv_saveThought (encode : SavedThought → Option String)
    (setOk : Bool) (s : Store) (t : SavedThought) (h : UuidKeyInv s) :
    UuidKeyInv (saveThought encode setOk s t).1 := by
  unfold saveThought
  cases encode t with
  | none => exact h
  | some str =>
    by_cases hl : str.length ≤ 0
    · simp only [if_pos hl]
      exact h
    · cases setOk with
      | false =>
        simp only [if_neg hl]
        simp only [Bool.false_eq_true, if_false]
        exact h
      | true =>
        simp only [if_neg hl, if_true]
        intro p hp u hu
        rcases mem_setKey s t.uuid (StoredValue.thoughtVal t) p hp with he | hm
        · rw [he] at hu ⊢
          simp only [StoredValue.thoughtVal.injEq] at hu
          rw [← hu]
        · exact h p hm u hu

/-- C9: every operation that writes a record — save, archive (deleteExercise) and
restore — writes it under the key equal to its uuid field, preserving the invariant
that a stored record's uuid equals its storage key. -/
theorem writes_preserve_uuid_key_inv (encode : SavedThought → Option String)
    (setOk : Bool) (now : JSDate) (freshId : String) (s : Store)
    (input : ExerciseInput) (key1 key2 : String) (h : UuidKeyInv s) :
    UuidKeyInv (saveExercise encode setOk now freshId s input).1
      ∧ UuidKeyInv (deleteExercise encode setOk now s key1)
      ∧ UuidKeyInv (restoreExercise encode setOk now s key2) := by
  refine ⟨?_, ?_, ?_⟩
  · cases input with
    | fresh th => exact UuidKeyInv_saveThought encode setOk s _ h
    | existing t => exact UuidKeyInv_saveThought encode setOk s _ h
  · unfold deleteExercise
    cases readThought s key1 with
    | failed => exact h
    | ok t0 =>
      by_cases hk : jsStartsWith key1 THOUGHTS_KEY_NS = true
      · simp only [hk, if_true]
        exact UuidKeyInv_removeKey _ _ (UuidKeyInv_saveThought encode setOk s _ h)
      · simp only [Bool.not_eq_true] at hk
        simp only [hk, Bool.false_eq_true, if_false]
        exact UuidKeyInv_removeKey _ _ h
  · unfold restoreExercise
    cases readThought s key2 with
    | failed => exact h
    | ok t0 =>
      exact UuidKeyInv_removeKey _ _ (UuidKeyInv_saveThought encode setOk s _ h)

/-- Witness for C9: the invariant holds of the empty store and is preserved by the
three operations on it. -/
theorem writes_preserve_uuid_key_inv_witness :
    UuidKeyInv (saveExercise goodEncode true ⟨2⟩ "w9" [] (ExerciseInput.fresh sampleBody)).1
      ∧ UuidKeyInv (deleteExercise goodEncode true ⟨2⟩ [] "@Quirk:thoughts:w9")
      ∧ UuidKeyInv (restoreExercise goodEncode true ⟨2⟩ [] "@Quirk:deleted-thoughts:w9") :=
  writes_preserve_uuid_key_inv goodEncode true ⟨2⟩ "w9" []
    (ExerciseInput.fresh sampleBody) "@Quirk:thoughts:w9" "@Quirk:deleted-thoughts:w9"
    (fun p hp => absurd hp (List.not_mem_nil p))

/-- A mixed store with a valid active record, a null row, and a valid archived
record — no unparsable entry. -/
def mixedOkStore : Store :=
  [("@Quirk:thoughts:good", StoredValue.thoughtVal validRecord),
   ("@Quirk:thoughts:nullrow", StoredValue.nullVal),
   ("@Quirk:deleted-thoughts:stale", StoredValue.thoughtVal staleArchived)]

/-- Witness for C3: on a concrete store without unparsable entries the valid records
are returned exactly, the null row dropped individually; on a concrete store with an
unparsable entry, everything is dropped. -/
theorem corrupt_tolerance_witness :
    (getExercises ⟨0⟩ mixedOkStore).1.savedThoughts = [validRecord]
      ∧ (getExercises ⟨0⟩ mixedOkStore).1.deletedThoughts = [staleArchived]
      ∧ (getExercises ⟨0⟩ corruptMixStore).1
          = { savedThoughts := [], deletedThoughts := [] } := by
  have h1 := corrupt_tolerance ⟨0⟩ mixedOkStore (by decide)
  have h2 := corrupt_tolerance ⟨0⟩ corruptMixStore (by decide)
  refine ⟨?_, ?_, ?_⟩
  · exact ((h1.1 (by decide)).1).trans (by rfl)
  · exact ((h1.1 (by decide)).2).trans (by rfl)
  · exact h2.2 (by decide)
